import Mathlib

/-!
Verification of the bootseq v2 core (bootseq.go, error.go) against its
specification. The Go code is shallowly embedded: Go maps become association
lists, pointer mutation becomes explicit state passing, the potentially
divergent `setPriority` recursion takes explicit fuel (returning `none` when
the fuel runs out, which models non-termination / panic), a Go `Func`
(`func() error`) is modelled by the error value the call returns
(`Option GoErr`, `none` = success), and a nil `Func` by the absence of that
value. Go panics are modelled as `none` results or distinguished error
values; they only occur outside the domains the theorems quantify over.
-/

/-- Errors produced by service functions or by the context: `svcFail` is an
opaque caller-defined action error, `ctxCanceled`/`ctxDeadlineExceeded` mirror
`context.Canceled` and `context.DeadlineExceeded`, and `panicked` stands for a
Go runtime panic (calling a nil function, or `byState` on an unknown state). -/
inductive GoErr where
  | svcFail (msg : String)
  | ctxCanceled
  | ctxDeadlineExceeded
  | panicked (msg : String)
deriving DecidableEq

/-- Model of a Go `Func` value (`func() error`): the error the call returns,
`none` meaning success. A Go `Func` variable may additionally be nil, which is
modelled as `Option Func := none` at the use sites. -/
abbrev Func := Option GoErr

/-- Result of calling a possibly-nil `Func`: calling a nil function panics in
Go, modelled as a distinguished `panicked` error. -/
def runFunc : Option Func → Option GoErr
  | some r => r
  | none => some (.panicked "call of nil Func")

/-- Mirror of `type state uint8` with `stateIdle`, `stateUp`, `stateDown`. -/
inductive state where
  | stateIdle
  | stateUp
  | stateDown
deriving DecidableEq

/-- Mirror of `type calleeDef uint8` with `calleeNone`, `calleeWait`,
`calleeProg`. -/
inductive calleeDef where
  | calleeNone
  | calleeWait
  | calleeProg
deriving DecidableEq

/-- Mirror of `type Service struct { name string; priority uint16; up, down
Func; after string }`. `priority` is the memoized level (sentinel 0 =
unresolved); `up`/`down` are nilable `Func`s. -/
structure Service where
  name : String
  priority : Nat
  up : Option Func
  down : Option Func
  after : String
deriving DecidableEq

/-- Mirror of `Service.After`: sets the predecessor link (in Go this mutates
the pointed-to struct; here it returns the updated value). -/
def Service.After (s : Service) (name : String) : Service :=
  { s with after := name }

/-- Mirror of `Service.byState`: the phase-appropriate function. With
`stateIdle` (the `default:` branch) Go panics; that case is modelled as a nil
function, whose call produces a `panicked` error via `runFunc`. -/
def Service.byState (s : Service) : state → Option Func
  | .stateUp => s.up
  | .stateDown => s.down
  | .stateIdle => none

/-- Mirror of `type Progress struct { Service string; Err error }`: one
progress event, the name of the service that finished and its error (`none`
on success). A terminal event carries the empty service name. -/
structure Progress where
  Service : String
  Err : Option GoErr
deriving DecidableEq

/-- Mirror of the typed errors of error.go, one constructor per error class,
each carrying its string payload. -/
inductive BootErr where
  | EmptySequenceError (name : String)
  | SelfReferenceError (name : String)
  | UnregisteredServiceError (name : String)
  | InvalidStateError (msg : String)
  | CyclicReferenceError (name : String)
  | CalleeError (msg : String)
  | NilFuncError (name : String)
deriving DecidableEq

/-- Mirror of the constant `calleeErrorMessage` of error.go. -/
def calleeErrorMessage : String :=
  "invalid callee: you may call Agent.Wait() or Agent.Progress(), not both"

/-- Mirror of the constant `idleErrorMessage` of error.go. -/
def idleErrorMessage : String := "need to start up first"

/-- Mirror of the constant `upErrorMessage` of error.go. -/
def upErrorMessage : String := "in process of starting up"

/-- Mirror of the constant `inProgressErrorMessage` of error.go. -/
def inProgressErrorMessage : String := "already in progress"

/-- Mirror of the constant `doneErrorMessage` of error.go. -/
def doneErrorMessage : String := "has already shut down"

/-- Mirror of `type unorderedServices map[string]*Service`: an association
list from name to Service value (the pointer indirection is flattened; writes
through a service pointer become in-place updates of the binding). -/
abbrev unorderedServices := List (String × Service)

/-- Mirror of `type orderedServices map[uint16][]Service`: an association list
from priority to the slice of Service values at that priority. -/
abbrev orderedServices := List (Nat × List Service)

/-- Go map read `u[name]`: the value bound to the first matching key. -/
def lookupS : unorderedServices → String → Option Service
  | [], _ => none
  | (k, s) :: rest, n => if n = k then some s else lookupS rest n

/-- Go map read `ordered[priority]` for the grouped collection. -/
def lookupG : orderedServices → Nat → Option (List Service)
  | [], _ => none
  | (k, l) :: rest, p => if p = k then some l else lookupG rest p

/-- Write `service.priority = p` through the service pointer stored under
`name`: updates the priority field of that binding, everything else kept. -/
def setPr (u : unorderedServices) (name : String) (p : Nat) : unorderedServices :=
  u.map (fun q => if q.1 = name then (q.1, { q.2 with priority := p }) else q)

/-- Write `service.after = pred` through the service pointer stored under
`name` (the effect of calling `After` on a handle registered under `name`). -/
def setAf (u : unorderedServices) (name pred : String) : unorderedServices :=
  u.map (fun q => if q.1 = name then (q.1, q.2.After pred) else q)

/-- Go map assignment `m.services[name] = ref`: replace the binding if the
key exists, append it otherwise. -/
def insertS : unorderedServices → String → Service → unorderedServices
  | [], name, s => [(name, s)]
  | (k, t) :: rest, name, s =>
    if k = name then (name, s) :: rest else (k, t) :: insertS rest name s

/-- Mirror of `unorderedServices.setPriority`. The Go recursion
`u.setPriority(service.after)` can diverge on cycles of length three or more,
so the embedding takes explicit fuel; `none` models both fuel exhaustion
(divergence) and the `missing Service` panic. On success it returns the
resolved priority together with the updated collection (Go mutates the
services through pointers). -/
def setPriority : Nat → unorderedServices → String → Option (Nat × unorderedServices)
  | 0, _, _ => none
  | fuel + 1, u, name =>
    if name = "" then some (0, u)
    else
      match lookupS u name with
      | none => none
      | some service =>
        if service.priority > 0 then some (service.priority, u)
        else if service.after = "" then some (1, setPr u name 1)
        else
          match setPriority fuel u service.after with
          | none => none
          | some (p, u') => some (p + 1, setPr u' name (p + 1))

/-- Go `ordered[priority] = append(ordered[priority], *service)`: note the
dereference — the Plan stores an independent copy of the Service value, so
later edits of the registry cannot reach it. -/
def appendG : orderedServices → Nat → Service → orderedServices
  | [], p, s => [(p, [s])]
  | (q, l) :: rest, p, s =>
    if q = p then (q, l ++ [s]) :: rest else (q, l) :: appendG rest p s

/-- Loop body of `unorderedServices.order`: for each name (one iteration of
`for name := range u`), resolve its priority and append the dereferenced
Service value to its priority group. -/
def orderList (fuel : Nat) :
    unorderedServices → orderedServices → List String →
    Option (unorderedServices × orderedServices)
  | u, g, [] => some (u, g)
  | u, g, name :: rest =>
    match setPriority fuel u name with
    | none => none
    | some (p, u') =>
      match lookupS u' name with
      | none => none
      | some service => orderList fuel u' (appendG g p service) rest

/-- Mirror of `unorderedServices.order`: resolve every registered name and
group the services by priority. Go iterates the map in an unspecified order;
the embedding iterates the bindings in list order, one admissible order. The
mutated collection is returned alongside the grouping (Go mutates it through
the shared pointers). -/
def order (fuel : Nat) (u : unorderedServices) :
    Option (unorderedServices × orderedServices) :=
  orderList fuel u [] (u.map Prod.fst)

/-- Mirror of `type Manager struct { name string; services unorderedServices }`
(the mutex only serializes access and has no sequential content). -/
structure Manager where
  name : String
  services : unorderedServices
deriving DecidableEq

/-- Mirror of `New`: a Manager with no services. -/
def New (name : String) : Manager := ⟨name, []⟩

/-- Mirror of `Manager.Register`. Go panics when the collection already holds
65535 services (`panicServiceLimit`), modelled as `none`; otherwise a fresh
Service (priority 0, no predecessor) replaces any existing binding under
`name`, and its handle is returned. -/
def Manager.Register (m : Manager) (name : String) (up down : Option Func) :
    Option (Manager × Service) :=
  if m.services.length = 65535 then none
  else
    some ({ m with services := insertS m.services name ⟨name, 0, up, down, ""⟩ },
      ⟨name, 0, up, down, ""⟩)

/-- Per-service body of the `for name, srvc := range m.services` loop of
`Manager.Validate`: nil-function check, then self-reference, then cyclic
(immediate two-node) reference or unregistered predecessor. -/
def validateEntry (u : unorderedServices) (name : String) (srvc : Service) :
    Option BootErr :=
  if srvc.up = none ∨ srvc.down = none then some (.NilFuncError srvc.name)
  else if srvc.after = "" then none
  else if srvc.after = name then some (.SelfReferenceError srvc.after)
  else
    match lookupS u srvc.after with
    | some prev =>
      if prev.after = srvc.name then some (.CyclicReferenceError srvc.name) else none
    | none => some (.UnregisteredServiceError srvc.after)

/-- Iteration of `Manager.Validate` over the registered services, returning
the first error found (Go iterates the map in an unspecified order; the
embedding iterates in list order, one admissible order). -/
def validateList (u : unorderedServices) : List (String × Service) → Option BootErr
  | [] => none
  | (name, srvc) :: rest =>
    match validateEntry u name srvc with
    | some e => some e
    | none => validateList u rest

/-- Mirror of `Manager.Validate`: `EmptySequenceError` for an empty registry,
otherwise the first per-service structural error, `none` when the registry is
valid. -/
def Manager.Validate (m : Manager) : Option BootErr :=
  if m.services = [] then some (.EmptySequenceError m.name)
  else validateList m.services m.services

/-- Mirror of `type Agent struct`: run name, current state, the ordered
(copied) services, the chosen consumption mode and the completion flag. The
progress channel itself is not modelled; the events sent on it are computed
by `exec` below. -/
structure Agent where
  name : String
  state : state
  orderedServices : orderedServices
  callee : calleeDef
  isDone : Bool
deriving DecidableEq

/-- Mirror of `Manager.Agent`, with the priority mutation made explicit: on
success Go has written the resolved priorities back through the shared
pointers, so the updated Manager is returned with the Agent. `none` models
divergence of `order` (unbounded recursion on an undetected cycle). -/
def Manager.agentCore (fuel : Nat) (m : Manager) :
    Option (Except BootErr (Manager × Agent)) :=
  if m.services = [] then some (.error (.EmptySequenceError m.name))
  else
    match m.Validate with
    | some e => some (.error e)
    | none =>
      match order fuel m.services with
      | none => none
      | some (u', g) =>
        some (.ok ({ m with services := u' },
          ⟨m.name, .stateIdle, g, .calleeNone, false⟩))

/-- Mirror of `Manager.Agent` as the caller sees it: only the Agent. A fresh
Agent starts in `stateIdle` with `calleeNone` and `isDone = false` (the Go
zero values of `&Agent{}`). -/
def Manager.AgentF (fuel : Nat) (m : Manager) : Option (Except BootErr Agent) :=
  (m.agentCore fuel).map (fun r => r.map Prod.snd)

/-- Mirror of `Agent.Up`'s guard and state update: accepted only from
`stateIdle` (then the state becomes `stateUp`, `isDone` resets, a fresh
progress channel is created — the channel is not modelled); rejected with
`doneErrorMessage` when the state is `stateDown` and `inProgressErrorMessage`
otherwise. Note that `callee` is not reset. -/
def Agent.Up (a : Agent) : Except BootErr Agent :=
  if a.state ≠ .stateIdle then
    .error (.InvalidStateError
      (if a.state = .stateDown then doneErrorMessage else inProgressErrorMessage))
  else .ok { a with state := .stateUp, isDone := false }

/-- Mirror of `Agent.Down`'s guard and state update: accepted only when the
state is `stateUp` and `isDone` is true; rejected with the message selected
by the `switch` on the current state. Note that `callee` is not reset. -/
def Agent.Down (a : Agent) : Except BootErr Agent :=
  if a.state ≠ .stateUp ∨ a.isDone = false then
    .error (.InvalidStateError
      (match a.state with
       | .stateIdle => idleErrorMessage
       | .stateUp => upErrorMessage
       | .stateDown => inProgressErrorMessage))
  else .ok { a with state := .stateDown, isDone := false }

/-- Mirror of `Agent.Progress`'s callee guard: fails with `CalleeError` after
`Wait` was chosen, otherwise records the streaming choice (the returned
channel is not modelled). -/
def Agent.Progress (a : Agent) : Except BootErr Agent :=
  if a.callee = .calleeWait then .error (.CalleeError calleeErrorMessage)
  else .ok { a with callee := .calleeProg }

/-- Mirror of `Agent.Wait`'s callee guard: fails with `CalleeError` after
`Progress` was chosen, otherwise records the blocking choice (the subsequent
draining of the channel is not modelled here). -/
def Agent.Wait (a : Agent) : Except BootErr Agent :=
  if a.callee = .calleeProg then .error (.CalleeError calleeErrorMessage)
  else .ok { a with callee := .calleeWait }

/-- Mirror of the deferred completion handler of `Agent.exec`: when the
sequence finished with no error, `isDone` becomes true; otherwise the state
is left as it is (the progress channel is also closed there). -/
def Agent.execFinish (a : Agent) (err : Option GoErr) : Agent :=
  if err = none then { a with isDone := true } else a

/-- First non-nil error of a list of results: the aggregate an errgroup run
reports for one priority level (Go returns the first error in completion
order; the embedding linearizes the level in slice order). -/
def firstErr : List (Option GoErr) → Option GoErr
  | [] => none
  | none :: rest => firstErr rest
  | some e :: _ => some e

/-- Events of one priority level of `Agent.execPriority`: every service of
the level runs (siblings are not cancelled by a failure) and reports one
event carrying its name and its result. -/
def runLevel (ph : state) (lvl : List Service) : List Progress :=
  lvl.map (fun s => ⟨s.name, runFunc (s.byState ph)⟩)

/-- Aggregate error of one priority level, as `grp.Wait()` reports it. -/
def levelErr (ph : state) (lvl : List Service) : Option GoErr :=
  firstErr (lvl.map (fun s => runFunc (s.byState ph)))

/-- Mirror of the level loop of `Agent.exec` over the levels in traversal
order. `cancel n` is the select oracle for iteration `n`: `some ce` when the
`<-ctx.Done()` branch is observed (then `ce` is `ctx.Err()`, the running
level is awaited — its events are all emitted — the level's own result is
discarded, a terminal event carrying `ce` is emitted, and the walk stops);
`none` when the `<-done` branch is taken (a non-nil level error then stops
the walk with no terminal event). After the last level a terminal event with
a nil error is emitted. The pair returned is (events sent on the progress
channel, final value of `err` at the deferred handler). -/
def exec (ph : state) : (Nat → Option GoErr) → List (List Service) →
    List Progress × Option GoErr
  | _, [] => ([⟨"", none⟩], none)
  | cancel, lvl :: rest =>
    match cancel 0 with
    | some ce => (runLevel ph lvl ++ [⟨"", some ce⟩], some ce)
    | none =>
      match levelErr ph lvl with
      | some e => (runLevel ph lvl, some e)
      | none =>
        let r := exec ph (fun n => cancel (n + 1)) rest
        (runLevel ph lvl ++ r.1, r.2)

/-- Levels in traversal order for a phase: `current` walks 1..n for the
startup sequence and n..1 for the shutdown sequence, so the shutdown phase
traverses the reversed level list. -/
def dirLevels (ph : state) (plan : List (List Service)) : List (List Service) :=
  if ph = .stateDown then plan.reverse else plan

/-- Number of services of a plan: the sum of the level sizes (mirror of
`orderedServices.length`). -/
def svcCount (plan : List (List Service)) : Nat := (plan.map List.length).sum

/-- Decidable statement that the first `k` iterations of the level loop run
cleanly: the cancellation oracle yields the `<-done` branch and the level
aggregate is nil, level by level. -/
def cleanPrefix (ph : state) :
    (Nat → Option GoErr) → List (List Service) → Nat → Bool
  | _, _, 0 => true
  | _, [], _ + 1 => true
  | cancel, lvl :: rest, k + 1 =>
    (cancel 0).isNone && (levelErr ph lvl).isNone &&
      cleanPrefix ph (fun n => cancel (n + 1)) rest k

/-- Registry edits a caller can make after an Agent was built: registering a
(new or existing) name, or calling `After` on the handle registered under a
name. -/
inductive MgrEdit where
  | register (name : String) (up down : Option Func)
  | setAfter (name : String) (pred : String)

/-- Effect of one edit on the Manager: `Register` (a panic at the service
limit leaves the map unchanged), or the `After` write through the current
handle of `name`. -/
def Manager.applyEdit (m : Manager) : MgrEdit → Manager
  | .register n up down =>
    match m.Register n up down with
    | some (m', _) => m'
    | none => m
  | .setAfter n p => { m with services := setAf m.services n p }

/-- World state for the frame theorem: the mutable Manager together with the
Agents already built from it. Built Agents hold copies of the Service values
(`order` dereferences every pointer), so they live apart from the Manager. -/
structure BootWorld where
  mgr : Manager
  agents : List Agent

/-- Apply a registry edit to the world: only the Manager changes. -/
def BootWorld.edit (w : BootWorld) (e : MgrEdit) : BootWorld :=
  { w with mgr := w.mgr.applyEdit e }

/-- Build an Agent in the world: on success the Manager carries the memoized
priorities and the new Agent is recorded; on failure nothing changes. -/
def BootWorld.build (fuel : Nat) (w : BootWorld) : BootWorld :=
  match Manager.agentCore fuel w.mgr with
  | some (.ok (m', a)) => { mgr := m', agents := w.agents ++ [a] }
  | _ => w

/-! ## Association-list lemmas -/

/-- Looking up the key just inserted finds the fresh value. -/
theorem lookupS_insertS_self : ∀ (u : unorderedServices) (name : String) (s : Service),
    lookupS (insertS u name s) name = some s := by
  intro u name s
  induction u with
  | nil => simp [insertS, lookupS]
  | cons q rest ih =>
    obtain ⟨k, t⟩ := q
    by_cases hk : k = name
    · simp [insertS, hk, lookupS]
    · rw [insertS, if_neg hk, lookupS, if_neg (fun h => hk h.symm)]
      exact ih

/-- Looking up any other key is unaffected by an insertion. -/
theorem lookupS_insertS_ne : ∀ (u : unorderedServices) (name : String) (s : Service)
    (n : String), n ≠ name → lookupS (insertS u name s) n = lookupS u n := by
  intro u name s n hn
  induction u with
  | nil => simp [insertS, lookupS, hn]
  | cons q rest ih =>
    obtain ⟨k, t⟩ := q
    by_cases hk : k = name
    · subst hk
      simp [insertS, lookupS, hn, ih]
    · simp only [insertS, if_neg hk, lookupS]
      by_cases hnk : n = k
      · simp [hnk]
      · simp [hnk, ih]

/-! ## C4, C5: the run-state machine guards -/

/-- C4 (amended): `Up` is accepted exactly from `stateIdle`; it is rejected
with `inProgressErrorMessage` when the state is `stateUp`, and with
`doneErrorMessage` whenever the state is `stateDown` — both while the Down
phase is still running and after it completed. -/
theorem C4_up_guard (a : Agent) :
    (a.state = .stateIdle →
      Agent.Up a = .ok { a with state := .stateUp, isDone := false }) ∧
    (a.state = .stateUp →
      Agent.Up a = .error (.InvalidStateError inProgressErrorMessage)) ∧
    (a.state = .stateDown →
      Agent.Up a = .error (.InvalidStateError doneErrorMessage)) := by
  obtain ⟨nm, st, os, ca, d⟩ := a
  cases st <;> simp [Agent.Up]

/-- Intermediate states of the run used by the C4 and C6 counterexamples: a
fresh Agent over a one-service plan. -/
def cexPlan : orderedServices := [(1, [⟨"a", 1, some none, some none, ""⟩])]

/-- Fresh agent (the value `Manager.Agent` constructs). -/
def cexAgent0 : Agent := ⟨"t", .stateIdle, cexPlan, .calleeNone, false⟩

/-- After `Up` was accepted. -/
def cexAgent1 : Agent := ⟨"t", .stateUp, cexPlan, .calleeNone, false⟩

/-- After the startup sequence finished cleanly. -/
def cexAgent2 : Agent := ⟨"t", .stateUp, cexPlan, .calleeNone, true⟩

/-- After `Down` was accepted: the Down phase is running (`isDone = false`). -/
def cexAgent3 : Agent := ⟨"t", .stateDown, cexPlan, .calleeNone, false⟩

/-- C4 counterexample: on the reachable state where the Down phase is
currently running (RunningDown, not yet completed), `Up` is rejected with
`doneErrorMessage` ("has already shut down"), not with
`inProgressErrorMessage` ("already in progress") as the claim states. -/
theorem C4_counterexample :
    Agent.Up cexAgent0 = .ok cexAgent1 ∧
    Agent.execFinish cexAgent1 none = cexAgent2 ∧
    Agent.Down cexAgent2 = .ok cexAgent3 ∧
    cexAgent3.state = .stateDown ∧ cexAgent3.isDone = false ∧
    Agent.Up cexAgent3 = .error (.InvalidStateError doneErrorMessage) ∧
    doneErrorMessage ≠ inProgressErrorMessage :=
  ⟨rfl, rfl, rfl, rfl, rfl, rfl, by decide⟩

/-- C5: `Down` is accepted exactly when the state is `stateUp` and the run
completed cleanly (`isDone`); otherwise it is rejected with
`idleErrorMessage` from Idle, `upErrorMessage` while starting up, and
`inProgressErrorMessage` when already shutting down. -/
theorem C5_down_guard (a : Agent) :
    (a.state = .stateUp ∧ a.isDone = true →
      Agent.Down a = .ok { a with state := .stateDown, isDone := false }) ∧
    (a.state = .stateIdle →
      Agent.Down a = .error (.InvalidStateError idleErrorMessage)) ∧
    (a.state = .stateUp ∧ a.isDone = false →
      Agent.Down a = .error (.InvalidStateError upErrorMessage)) ∧
    (a.state = .stateDown →
      Agent.Down a = .error (.InvalidStateError inProgressErrorMessage)) := by
  obtain ⟨nm, st, os, ca, d⟩ := a
  cases st <;> cases d <;> simp [Agent.Down]

/-! ## C6: consumption-mode exclusivity -/

/-- C6 (amended): the two consumption modes are mutually exclusive — after
choosing Streaming, `Wait` fails with a `CalleeError`, and after choosing
Blocking, `Progress` fails with a `CalleeError`; a freshly built Agent starts
with `calleeNone`, but neither `Up` nor `Down` nor the completion handler
resets `callee`, so the chosen mode persists across phase invocations. -/
theorem C6_callee_exclusive (a a' : Agent) (m : Manager) (fuel : Nat) :
    (a.callee = .calleeProg →
      Agent.Wait a = .error (.CalleeError calleeErrorMessage)) ∧
    (a.callee = .calleeWait →
      Agent.Progress a = .error (.CalleeError calleeErrorMessage)) ∧
    (Agent.Up a = .ok a' → a'.callee = a.callee) ∧
    (Agent.Down a = .ok a' → a'.callee = a.callee) ∧
    (∀ r, (Agent.execFinish a r).callee = a.callee) ∧
    (Manager.AgentF fuel m = some (.ok a') → a'.callee = .calleeNone) := by
  refine ⟨?_, ?_, ?_, ?_, ?_, ?_⟩
  · intro h
    simp [Agent.Wait, h]
  · intro h
    simp [Agent.Progress, h]
  · intro h
    simp only [Agent.Up] at h
    split at h
    · simp at h
    · injection h with h
      subst h
      rfl
  · intro h
    simp only [Agent.Down] at h
    split at h
    · simp at h
    · injection h with h
      subst h
      rfl
  · intro r
    simp only [Agent.execFinish]
    split <;> rfl
  · intro h
    simp only [Manager.AgentF, Option.map_eq_some'] at h
    obtain ⟨r, hr, hmap⟩ := h
    by_cases hemp : m.services = []
    · simp [Manager.agentCore, hemp] at hr
      subst hr
      simp [Except.map] at hmap
    · cases hval : m.Validate with
      | some e =>
        simp [Manager.agentCore, hemp, hval] at hr
        subst hr
        simp [Except.map] at hmap
      | none =>
        cases hord : order fuel m.services with
        | none => simp [Manager.agentCore, hemp, hval, hord] at hr
        | some p =>
          obtain ⟨u', g⟩ := p
          simp [Manager.agentCore, hemp, hval, hord] at hr
          subst hr
          simp [Except.map] at hmap
          subst hmap
          rfl

/-- State after `Progress` chose the streaming mode on the running Up phase. -/
def cexAgentP : Agent := ⟨"t", .stateUp, cexPlan, .calleeProg, false⟩

/-- State after the Up phase then finished cleanly, mode still chosen. -/
def cexAgentPD : Agent := ⟨"t", .stateUp, cexPlan, .calleeProg, true⟩

/-- State after `Down` was then accepted: a new phase invocation whose
consumption mode is still `calleeProg`. -/
def cexAgentPDown : Agent := ⟨"t", .stateDown, cexPlan, .calleeProg, false⟩

/-- C6 counterexample: choose Streaming during Up, let Up finish cleanly,
start Down — the new phase invocation does not start with the mode Unchosen
(`callee` is still `calleeProg`, and `Wait` still fails), refuting the
claim's "a new phase invocation starts with the mode Unchosen". -/
theorem C6_counterexample :
    Agent.Up cexAgent0 = .ok cexAgent1 ∧
    Agent.Progress cexAgent1 = .ok cexAgentP ∧
    Agent.execFinish cexAgentP none = cexAgentPD ∧
    Agent.Down cexAgentPD = .ok cexAgentPDown ∧
    cexAgentPDown.callee = .calleeProg ∧
    cexAgentPDown.callee ≠ .calleeNone ∧
    Agent.Wait cexAgentPDown = .error (.CalleeError calleeErrorMessage) :=
  ⟨rfl, rfl, rfl, rfl, rfl, by decide, rfl⟩

/-! ## C9: built Plans are unaffected by later Registry edits -/

/-- Edits to the Manager never touch the Agents already built (they hold
copies of the Service values). -/
theorem agents_foldl_edit : ∀ (edits : List MgrEdit) (w : BootWorld),
    (edits.foldl BootWorld.edit w).agents = w.agents := by
  intro edits
  induction edits with
  | nil => intro w; rfl
  | cons e rest ih => intro w; exact ih (w.edit e)

/-- C9: registry edits made after an Agent is built — registering a new
service, re-registering an existing name, or setting a predecessor through a
service handle — leave every already-built Agent (its level grouping, the
service names and the stored actions in `orderedServices`) unchanged, also
for an Agent built at any earlier point of the edit sequence. -/
theorem C9_plan_frame (w : BootWorld) (fuel : Nat) (edits : List MgrEdit) :
    ((edits.foldl BootWorld.edit w).agents = w.agents) ∧
    ((edits.foldl BootWorld.edit (BootWorld.build fuel w)).agents =
      (BootWorld.build fuel w).agents) :=
  ⟨agents_foldl_edit edits w, agents_foldl_edit edits (BootWorld.build fuel w)⟩

/-! ## C10: re-registration replaces the stored Service -/

/-- C10 (amended): for every Manager with fewer than 65535 registered
services, registering a name — in particular re-registering an existing one —
stores a fresh Service whose predecessor link is the empty string and whose
memoized level is the sentinel zero, leaving every other binding unchanged;
the returned handle is that fresh Service. -/
theorem C10_register_replaces (m : Manager) (name : String) (up down : Option Func)
    (h : m.services.length ≠ 65535) :
    ∃ m' ref, m.Register name up down = some (m', ref) ∧
      ref = ⟨name, 0, up, down, ""⟩ ∧
      lookupS m'.services name = some ⟨name, 0, up, down, ""⟩ ∧
      (∀ n, n ≠ name → lookupS m'.services n = lookupS m.services n) := by
  refine ⟨{ m with services := insertS m.services name ⟨name, 0, up, down, ""⟩ },
    ⟨name, 0, up, down, ""⟩, ?_, rfl, ?_, ?_⟩
  · simp [Manager.Register, h]
  · exact lookupS_insertS_self m.services name _
  · intro n hn
    exact lookupS_insertS_ne m.services name _ n hn

/-- Manager holding a service "a" with a predecessor link and a memoized
level, used to witness that re-registration clears both. -/
def wMgr : Manager :=
  ⟨"w", [("a", ⟨"a", 3, some none, some none, "b"⟩),
         ("b", ⟨"b", 1, some none, some none, ""⟩)]⟩

/-- Witness for C10 at a concrete Manager: re-registering "a" (which had
`after = "b"` and level 3) stores the fresh Service with `after = ""` and
level 0. -/
theorem C10_witness :
    wMgr.services.length ≠ 65535 ∧
    (∃ m' ref, wMgr.Register "a" (some none) (some none) = some (m', ref) ∧
      ref = ⟨"a", 0, some none, some none, ""⟩ ∧
      lookupS m'.services "a" = some ⟨"a", 0, some none, some none, ""⟩ ∧
      (∀ n, n ≠ "a" → lookupS m'.services n = lookupS wMgr.services n)) :=
  ⟨by decide, C10_register_replaces wMgr "a" (some none) (some none) (by decide)⟩

/-- Service used to fill the registry up to the 65535-entry limit. -/
def limSvc : Service := ⟨"0", 0, some none, some none, "b"⟩

/-- Registry with exactly 65535 entries whose first binding is "0". -/
def limServices : unorderedServices :=
  ("0", limSvc) :: (List.range 65534).map (fun i => (toString (i + 1), limSvc))

/-- Manager at the registration limit. -/
def limMgr : Manager := ⟨"lim", limServices⟩

/-- C10 counterexample: on a Manager that already holds 65535 services,
re-registering the existing name "0" does not replace the stored Service —
Go panics (`panicServiceLimit`, modelled as `none`) before touching the map,
so the claim fails for this Manager. -/
theorem C10_counterexample :
    lookupS limMgr.services "0" = some limSvc ∧ limSvc.after = "b" ∧
    limMgr.Register "0" (some none) (some none) = none := by
  refine ⟨rfl, rfl, ?_⟩
  have hlen : limMgr.services.length = 65535 := by
    show (("0", limSvc) :: (List.range 65534).map (fun i => (toString (i + 1), limSvc))).length = 65535
    rw [List.length_cons, List.length_map, List.length_range]
  rw [Manager.Register, if_pos hlen]

/-! ## C8: characterization of Validate -/

/-- Successful lookups come from bindings of the list. -/
theorem lookupS_mem : ∀ (u : unorderedServices) (n : String) (s : Service),
    lookupS u n = some s → (n, s) ∈ u := by
  intro u n s h
  induction u with
  | nil => simp [lookupS] at h
  | cons q rest ih =>
    obtain ⟨k, t⟩ := q
    rw [lookupS] at h
    by_cases hk : n = k
    · rw [if_pos hk] at h
      injection h with h
      subst hk
      subst h
      exact List.mem_cons_self ..
    · rw [if_neg hk] at h
      exact List.mem_cons_of_mem _ (ih h)

/-- Per-service check of `Validate`: it passes exactly when both functions
are present and any predecessor link is neither the service's own key nor
unregistered nor immediately cyclic. -/
theorem validateEntry_none_iff (u : unorderedServices) (n : String) (s : Service) :
    validateEntry u n s = none ↔
      (s.up ≠ none ∧ s.down ≠ none ∧
       (s.after ≠ "" → s.after ≠ n ∧
         ∃ prev, lookupS u s.after = some prev ∧ prev.after ≠ s.name)) := by
  unfold validateEntry
  by_cases h1 : s.up = none ∨ s.down = none
  · rcases h1 with h | h <;> simp [h]
  · push_neg at h1
    rw [if_neg (by simp [h1.1, h1.2])]
    by_cases h2 : s.after = ""
    · simp [h2, h1.1, h1.2]
    · rw [if_neg h2]
      by_cases h3 : s.after = n
      · simp [h3, h1.1, h1.2, h2]
        exact h3 ▸ h2
      · rw [if_neg h3]
        cases hl : lookupS u s.after with
        | none => simp [h1.1, h1.2, h2, h3, hl]
        | some prev =>
          by_cases h4 : prev.after = s.name
          · simp [h1.1, h1.2, h2, h3, hl, h4]
          · simp [h1.1, h1.2, h2, h3, hl, h4]

/-- The validation loop passes exactly when every visited service passes. -/
theorem validateList_none_iff (u : unorderedServices) : ∀ (l : List (String × Service)),
    validateList u l = none ↔ ∀ p ∈ l, validateEntry u p.1 p.2 = none := by
  intro l
  induction l with
  | nil => simp [validateList]
  | cons q rest ih =>
    obtain ⟨n, s⟩ := q
    cases he : validateEntry u n s with
    | some e => simp [validateList, he]
    | none => simp [validateList, he, ih]

/-- An error returned by the validation loop is the error of some visited
service. -/
theorem validateList_some (u : unorderedServices) :
    ∀ (l : List (String × Service)) (e : BootErr),
    validateList u l = some e → ∃ p ∈ l, validateEntry u p.1 p.2 = some e := by
  intro l
  induction l with
  | nil => intro e h; simp [validateList] at h
  | cons q rest ih =>
    obtain ⟨n, s⟩ := q
    intro e h
    cases he : validateEntry u n s with
    | some e' =>
      rw [validateList, he] at h
      injection h with h
      subst h
      exact ⟨(n, s), List.mem_cons_self .., he⟩
    | none =>
      rw [validateList, he] at h
      obtain ⟨p, hp, hpe⟩ := ih e h
      exact ⟨p, List.mem_cons_of_mem _ hp, hpe⟩

/-- Statement that an error value names a violation actually present in the
registry, class by class: `EmptySequenceError` an empty registry,
`NilFuncError` a service with a missing function, `SelfReferenceError` a
service whose predecessor is its own key, `UnregisteredServiceError` a
predecessor that is not a key, `CyclicReferenceError` an immediate two-node
cycle. The run-state error classes never arise from validation. -/
def classMatches (u : unorderedServices) : BootErr → Prop
  | .EmptySequenceError _ => u = []
  | .NilFuncError nm => ∃ p ∈ u, p.2.name = nm ∧ (p.2.up = none ∨ p.2.down = none)
  | .SelfReferenceError nm => ∃ p ∈ u, p.2.after ≠ "" ∧ p.2.after = p.1 ∧ p.2.after = nm
  | .UnregisteredServiceError nm =>
      ∃ p ∈ u, p.2.after = nm ∧ p.2.after ≠ "" ∧ lookupS u nm = none
  | .CyclicReferenceError nm =>
      ∃ p ∈ u, p.2.name = nm ∧ p.2.after ≠ "" ∧ p.2.after ≠ p.1 ∧
        ∃ prev, lookupS u p.2.after = some prev ∧ prev.after = nm
  | .InvalidStateError _ => False
  | .CalleeError _ => False

/-- An error reported for a registered service names a violation of the
corresponding class present in the registry. -/
theorem validateEntry_some_class (u : unorderedServices) (n : String) (s : Service)
    (e : BootErr) (hm : (n, s) ∈ u) (h : validateEntry u n s = some e) :
    classMatches u e := by
  unfold validateEntry at h
  by_cases h1 : s.up = none ∨ s.down = none
  · rw [if_pos h1] at h
    injection h with h
    subst h
    exact ⟨(n, s), hm, rfl, h1⟩
  · rw [if_neg h1] at h
    by_cases h2 : s.after = ""
    · simp [h2] at h
    · rw [if_neg h2] at h
      by_cases h3 : s.after = n
      · rw [if_pos h3] at h
        injection h with h
        subst h
        exact ⟨(n, s), hm, h2, h3, rfl⟩
      · rw [if_neg h3] at h
        cases hl : lookupS u s.after with
        | none =>
          rw [hl] at h
          simp only [Option.some.injEq] at h
          subst h
          exact ⟨(n, s), hm, rfl, h2, hl⟩
        | some prev =>
          rw [hl] at h
          simp only [Option.some.injEq] at h
          by_cases h4 : prev.after = s.name
          · rw [if_pos h4] at h
            injection h with h
            subst h
            exact ⟨(n, s), hm, rfl, h2, h3, prev, hl, h4⟩
          · rw [if_neg h4] at h
            simp at h

/-- C8: `Validate` returns nil exactly when the registry is non-empty, every
service has both functions, no predecessor equals the service's own key,
every predecessor is registered and no predecessor immediately points back;
and any error it returns is of a class matching a violation present in the
registry (the first one in iteration order). -/
theorem C8_validate (m : Manager) :
    (m.Validate = none ↔
      (m.services ≠ [] ∧ ∀ p ∈ m.services,
        p.2.up ≠ none ∧ p.2.down ≠ none ∧
        (p.2.after ≠ "" → p.2.after ≠ p.1 ∧
          ∃ prev, lookupS m.services p.2.after = some prev ∧
            prev.after ≠ p.2.name))) ∧
    (∀ e, m.Validate = some e → classMatches m.services e) := by
  constructor
  · unfold Manager.Validate
    by_cases hemp : m.services = []
    · simp [hemp]
    · rw [if_neg hemp, validateList_none_iff]
      simp only [validateEntry_none_iff]
      exact ⟨fun h => ⟨hemp, h⟩, fun h => h.2⟩
  · intro e he
    unfold Manager.Validate at he
    by_cases hemp : m.services = []
    · rw [if_pos hemp] at he
      injection he with he
      subst he
      exact hemp
    · rw [if_neg hemp] at he
      obtain ⟨p, hp, hpe⟩ := validateList_some _ _ _ he
      exact validateEntry_some_class _ p.1 p.2 e (by simpa using hp) hpe

/-! ## C1, C7: events of one phase -/

/-- Cancellation oracle as the level loop sees it from iteration `k` on. -/
def shiftCancel (k : Nat) (cancel : Nat → Option GoErr) : Nat → Option GoErr :=
  fun n => cancel (n + k)

/-- Splitting the level loop after `k` cleanly completed iterations: the
events so far are exactly the events of the first `k` levels, and the loop
continues on the remaining levels with the shifted oracle. -/
theorem exec_clean_split (ph : state) :
    ∀ (k : Nat) (cancel : Nat → Option GoErr) (levels : List (List Service)),
    cleanPrefix ph cancel levels k = true →
    exec ph cancel levels =
      (((levels.take k).map (runLevel ph)).flatten ++
        (exec ph (shiftCancel k cancel) (levels.drop k)).1,
       (exec ph (shiftCancel k cancel) (levels.drop k)).2) := by
  intro k
  induction k with
  | zero =>
    intro cancel levels _
    rfl
  | succ k ih =>
    intro cancel levels hclean
    cases levels with
    | nil => rfl
    | cons lvl rest =>
      rw [cleanPrefix] at hclean
      simp only [Bool.and_eq_true, Option.isNone_iff_eq_none] at hclean
      obtain ⟨⟨hc, hl⟩, hrest⟩ := hclean
      have hsc : shiftCancel k (fun n => cancel (n + 1)) = shiftCancel (k + 1) cancel := rfl
      simp only [exec, hc, hl]
      rw [ih (fun n => cancel (n + 1)) rest hrest, hsc]
      simp [List.append_assoc]

/-- C7: when the cancellation token is observed at iteration `k` after `k`
cleanly completed levels, the running level `lvlk` is awaited to completion
(all of its events are emitted), one terminal event carrying the cancellation
error follows, the phase result is that error, and the remaining levels are
never visited — every emitted event belongs to an already-completed level, to
the level that was running, or is the terminal event, so services of levels
not yet started never report. -/
theorem C7_cancellation (ph : state) (cancel : Nat → Option GoErr)
    (levels : List (List Service)) (k : Nat) (lvlk : List Service)
    (rest : List (List Service)) (ce : GoErr)
    (_hph : ph = .stateUp ∨ ph = .stateDown)
    (hclean : cleanPrefix ph cancel levels k = true)
    (hdrop : levels.drop k = lvlk :: rest)
    (hcancel : cancel k = some ce) :
    exec ph cancel levels =
      (((levels.take k).map (runLevel ph)).flatten ++ runLevel ph lvlk ++
        [⟨"", some ce⟩], some ce) ∧
    ∀ ev ∈ (exec ph cancel levels).1,
      ev ∈ ((levels.take k).map (runLevel ph)).flatten ∨ ev ∈ runLevel ph lvlk ∨
        ev = ⟨"", some ce⟩ := by
  have hsplit := exec_clean_split ph k cancel levels hclean
  rw [hdrop] at hsplit
  have hc0 : shiftCancel k cancel 0 = some ce := by
    show cancel (0 + k) = some ce
    rw [Nat.zero_add]
    exact hcancel
  have hexec : exec ph (shiftCancel k cancel) (lvlk :: rest) =
      (runLevel ph lvlk ++ [⟨"", some ce⟩], some ce) := by
    simp only [exec, hc0]
  rw [hexec] at hsplit
  refine ⟨by rw [hsplit]; simp [List.append_assoc], ?_⟩
  intro ev hev
  rw [hsplit] at hev
  simp only [List.mem_append, List.mem_singleton] at hev
  tauto

/-- Three-level plan with one service per level, used by the C7 witness. -/
def wlvA : Service := ⟨"one", 1, some none, some none, ""⟩

/-- Level-2 service of the witness plan. -/
def wlvB : Service := ⟨"two", 2, some none, some none, "one"⟩

/-- Level-3 service of the witness plan. -/
def wlvC : Service := ⟨"three", 3, some none, some none, "two"⟩

/-- The witness plan in traversal order. -/
def wLevels : List (List Service) := [[wlvA], [wlvB], [wlvC]]

/-- Cancellation observed at iteration 1 (while level two is running). -/
def wCancel : Nat → Option GoErr := fun n => if n = 1 then some .ctxCanceled else none

/-- Witness for C7: level one completes, cancellation is observed while level
two runs, the terminal event carries the cancellation error and the level-3
service never reports. -/
theorem C7_witness :
    exec .stateUp wCancel wLevels =
      (((wLevels.take 1).map (runLevel .stateUp)).flatten ++ runLevel .stateUp [wlvB] ++
        [⟨"", some .ctxCanceled⟩], some .ctxCanceled) ∧
    ∀ ev ∈ (exec .stateUp wCancel wLevels).1,
      ev ∈ ((wLevels.take 1).map (runLevel .stateUp)).flatten ∨
        ev ∈ runLevel .stateUp [wlvB] ∨ ev = ⟨"", some .ctxCanceled⟩ :=
  C7_cancellation .stateUp wCancel wLevels 1 [wlvB] [[wlvC]] .ctxCanceled
    (Or.inl rfl) (by decide) (by decide) (by decide)

/-- Total number of events of the completed levels equals the number of their
services. -/
theorem length_flatten_runLevel (ph : state) : ∀ (L : List (List Service)),
    ((L.map (runLevel ph)).flatten).length = svcCount L := by
  intro L
  induction L with
  | nil => rfl
  | cons lvl rest ih =>
    simp only [List.map_cons, List.flatten_cons, List.length_append, svcCount,
      List.sum_cons, runLevel, List.length_map] at ih ⊢
    omega

/-- The traversal direction does not change the number of services. -/
theorem svcCount_dirLevels (ph : state) (plan : List (List Service)) :
    svcCount (dirLevels ph plan) = svcCount plan := by
  unfold dirLevels svcCount
  split
  · rw [List.map_reverse, List.sum_reverse]
  · rfl

/-- C1 (amended), for either phase direction. Full completion (every level
clean, no cancellation observed): the events are one non-terminal event per
service of the Plan followed by exactly one terminal event with an empty name
and a nil error, so the event count is the Plan's service count plus one.
Cancellation observed at iteration `k`: the events are those of the levels up
to and including the running one, followed by exactly one terminal event
carrying the cancellation error. First service failure at level `k` (no
cancellation observed): the events are exactly those of the levels up to and
including the failing one and no terminal event is emitted — the failing
level's events are the last ones. -/
theorem C1_exec_events (ph : state) (plan : List (List Service))
    (cancel : Nat → Option GoErr) :
    (cleanPrefix ph cancel (dirLevels ph plan) (dirLevels ph plan).length = true →
      exec ph cancel (dirLevels ph plan) =
        (((dirLevels ph plan).map (runLevel ph)).flatten ++ [⟨"", none⟩], none) ∧
      (exec ph cancel (dirLevels ph plan)).1.length = svcCount plan + 1) ∧
    (∀ (k : Nat) (lvlk : List Service) (rest : List (List Service)) (ce : GoErr),
      cleanPrefix ph cancel (dirLevels ph plan) k = true →
      (dirLevels ph plan).drop k = lvlk :: rest →
      cancel k = some ce →
      exec ph cancel (dirLevels ph plan) =
        ((((dirLevels ph plan).take k).map (runLevel ph)).flatten ++ runLevel ph lvlk ++
          [⟨"", some ce⟩], some ce)) ∧
    (∀ (k : Nat) (lvlk : List Service) (rest : List (List Service)) (e : GoErr),
      cleanPrefix ph cancel (dirLevels ph plan) k = true →
      (dirLevels ph plan).drop k = lvlk :: rest →
      cancel k = none → levelErr ph lvlk = some e →
      exec ph cancel (dirLevels ph plan) =
        ((((dirLevels ph plan).take k).map (runLevel ph)).flatten ++ runLevel ph lvlk,
         some e)) := by
  refine ⟨?_, ?_, ?_⟩
  · intro hfull
    have h := exec_clean_split ph (dirLevels ph plan).length cancel (dirLevels ph plan) hfull
    rw [List.take_length, List.drop_length] at h
    have h2 : exec ph cancel (dirLevels ph plan) =
        (((dirLevels ph plan).map (runLevel ph)).flatten ++ [⟨"", none⟩], none) := h
    refine ⟨h2, ?_⟩
    rw [h2, List.length_append, length_flatten_runLevel ph (dirLevels ph plan),
      svcCount_dirLevels]
    rfl
  · intro k lvlk rest ce hclean hdrop hcancel
    have hsplit := exec_clean_split ph k cancel (dirLevels ph plan) hclean
    rw [hdrop] at hsplit
    have hc0 : shiftCancel k cancel 0 = some ce := by
      show cancel (0 + k) = some ce
      rw [Nat.zero_add]
      exact hcancel
    have hexec : exec ph (shiftCancel k cancel) (lvlk :: rest) =
        (runLevel ph lvlk ++ [⟨"", some ce⟩], some ce) := by
      simp only [exec, hc0]
    rw [hexec] at hsplit
    rw [hsplit]
    simp [List.append_assoc]
  · intro k lvlk rest e hclean hdrop hcancel hlvl
    have hsplit := exec_clean_split ph k cancel (dirLevels ph plan) hclean
    rw [hdrop] at hsplit
    have hc0 : shiftCancel k cancel 0 = none := by
      show cancel (0 + k) = none
      rw [Nat.zero_add]
      exact hcancel
    have hexec : exec ph (shiftCancel k cancel) (lvlk :: rest) =
        (runLevel ph lvlk, some e) := by
      simp only [exec, hc0, hlvl]
    rw [hexec] at hsplit
    exact hsplit

/-- Service whose up function fails, for the C1 counterexample. -/
def cexFail : Service := ⟨"f", 1, some (some (.svcFail "boom")), some none, ""⟩

/-- Second-level service of the C1 counterexample plan. -/
def cexAfterFail : Service := ⟨"g", 2, some none, some none, "f"⟩

/-- Two-level plan whose first level fails. -/
def cexPlanFail : List (List Service) := [[cexFail], [cexAfterFail]]

/-- C1 counterexample: driving the Up phase over a two-service Plan whose
first service fails emits a single non-terminal event (not one per service of
the Plan) and no terminal event at all — every emitted event names a service —
refuting both the claimed event count and the claimed single terminal event
carrying the first service failure. -/
theorem C1_counterexample :
    exec .stateUp (fun _ => none) (dirLevels .stateUp cexPlanFail) =
      ([⟨"f", some (.svcFail "boom")⟩], some (.svcFail "boom")) ∧
    svcCount cexPlanFail = 2 ∧
    (exec .stateUp (fun _ => none) (dirLevels .stateUp cexPlanFail)).1.length = 1 ∧
    (∀ ev ∈ (exec .stateUp (fun _ => none) (dirLevels .stateUp cexPlanFail)).1,
      ev.Service ≠ "") := by
  refine ⟨rfl, rfl, rfl, ?_⟩
  intro ev hev
  have h : (exec .stateUp (fun _ => none) (dirLevels .stateUp cexPlanFail)).1 =
      [⟨"f", some (.svcFail "boom")⟩] := rfl
  rw [h] at hev
  simp only [List.mem_singleton] at hev
  subst hev
  decide

/-! ## C2, C3: the level computation -/

/-- Reading the binding just written by a priority update. -/
theorem lookupS_setPr_self : ∀ (u : unorderedServices) (name : String) (p : Nat),
    lookupS (setPr u name p) name =
      (lookupS u name).map (fun s => { s with priority := p }) := by
  intro u name p
  induction u with
  | nil => rfl
  | cons q rest ih =>
    obtain ⟨k, t⟩ := q
    simp only [setPr, List.map_cons] at ih ⊢
    by_cases hkn : k = name
    · have hnk : name = k := hkn.symm
      rw [if_pos hkn]
      simp only [lookupS, if_pos hnk]
      rfl
    · rw [if_neg hkn]
      have hnk : ¬name = k := fun h => hkn h.symm
      simp only [lookupS, if_neg hnk]
      exact ih

/-- Reading any other binding is unaffected by a priority update. -/
theorem lookupS_setPr_ne : ∀ (u : unorderedServices) (name : String) (p : Nat)
    (n : String), n ≠ name → lookupS (setPr u name p) n = lookupS u n := by
  intro u name p n hn
  induction u with
  | nil => rfl
  | cons q rest ih =>
    obtain ⟨k, t⟩ := q
    simp only [setPr, List.map_cons] at ih ⊢
    by_cases hkn : k = name
    · rw [if_pos hkn]
      rw [lookupS, lookupS]
      have hnk : ¬n = k := fun h => hn (h.trans hkn)
      rw [if_neg hnk, if_neg hnk]
      exact ih
    · rw [if_neg hkn]
      rw [lookupS, lookupS]
      by_cases hnk : n = k
      · rw [if_pos hnk, if_pos hnk]
      · rw [if_neg hnk, if_neg hnk]
        exact ih

/-- State extension along the level computation: every binding keeps its key,
name, functions and predecessor link, and a priority that was already
resolved (non-zero) keeps its value. -/
def extendsS (u v : unorderedServices) : Prop :=
  (∀ n, (lookupS v n).isSome = (lookupS u n).isSome) ∧
  (∀ n s, lookupS u n = some s → ∃ t, lookupS v n = some t ∧
    t.name = s.name ∧ t.up = s.up ∧ t.down = s.down ∧ t.after = s.after ∧
    (s.priority ≠ 0 → t.priority = s.priority))

/-- Extension is reflexive. -/
theorem extendsS_refl (u : unorderedServices) : extendsS u u :=
  ⟨fun _ => rfl, fun _ s h => ⟨s, h, rfl, rfl, rfl, rfl, fun _ => rfl⟩⟩

/-- Extension is transitive. -/
theorem extendsS_trans {u v w : unorderedServices}
    (h1 : extendsS u v) (h2 : extendsS v w) : extendsS u w := by
  refine ⟨fun n => (h2.1 n).trans (h1.1 n), fun n s hs => ?_⟩
  obtain ⟨t, hltv, hn1, hu1, hd1, ha1, hp1⟩ := h1.2 n s hs
  obtain ⟨t', hltw, hn2, hu2, hd2, ha2, hp2⟩ := h2.2 n t hltv
  refine ⟨t', hltw, hn2.trans hn1, hu2.trans hu1, hd2.trans hd1, ha2.trans ha1, ?_⟩
  intro hs0
  rw [hp2 (by rw [hp1 hs0]; exact hs0), hp1 hs0]

/-- Setting the priority of an unresolved binding is an extension. -/
theorem extendsS_setPr (u : unorderedServices) (name : String) (p : Nat)
    (s : Service) (hl : lookupS u name = some s) (h0 : s.priority = 0) :
    extendsS u (setPr u name p) := by
  constructor
  · intro n
    by_cases hn : n = name
    · subst hn
      rw [lookupS_setPr_self, hl]
      rfl
    · rw [lookupS_setPr_ne _ _ _ _ hn]
  · intro n s' hs'
    by_cases hn : n = name
    · subst hn
      rw [hl] at hs'
      injection hs' with hs'
      subst hs'
      refine ⟨{ s with priority := p }, ?_, rfl, rfl, rfl, rfl, fun hne => absurd h0 hne⟩
      rw [lookupS_setPr_self, hl]
      rfl
    · exact ⟨s', by rw [lookupS_setPr_ne _ _ _ _ hn]; exact hs', rfl, rfl, rfl, rfl,
        fun _ => rfl⟩

/-- Memoization invariant of the level computation: every already-resolved
binding satisfies the level law with respect to the current state. -/
def priOK (u : unorderedServices) : Prop :=
  ∀ n s, lookupS u n = some s → s.priority ≠ 0 →
    (s.after = "" → s.priority = 1) ∧
    (s.after ≠ "" → ∃ t, lookupS u s.after = some t ∧ t.priority ≠ 0 ∧
      s.priority = t.priority + 1)

/-- Ranking function witnessing acyclicity of the predecessor links. -/
def rankOK (rank : String → Nat) (u : unorderedServices) : Prop :=
  ∀ n s, lookupS u n = some s → s.after ≠ "" → rank s.after < rank n

/-- Referential integrity: every predecessor link of a registered service is
itself registered. -/
def refsOK (u : unorderedServices) : Prop :=
  ∀ n s, lookupS u n = some s → s.after ≠ "" → (lookupS u s.after).isSome = true

/-- Acyclicity of a registration set: some ranking decreases along every
predecessor link. -/
def Acyclic (u : unorderedServices) : Prop :=
  ∃ rank : String → Nat, rankOK rank u

/-- A ranking stays valid along an extension. -/
theorem rankOK_extendsS {u v : unorderedServices} (rank : String → Nat)
    (h : extendsS u v) (hr : rankOK rank u) : rankOK rank v := by
  intro n t hlt hta
  have hsome : (lookupS u n).isSome = true := by
    rw [← h.1 n, hlt]
    rfl
  obtain ⟨s, hls⟩ := Option.isSome_iff_exists.mp hsome
  obtain ⟨t', hlt', _, _, _, ha, _⟩ := h.2 n s hls
  rw [hlt] at hlt'
  injection hlt' with hlt'
  subst hlt'
  exact ha ▸ hr n s hls (ha ▸ hta)

/-- Referential integrity stays valid along an extension. -/
theorem refsOK_extendsS {u v : unorderedServices}
    (h : extendsS u v) (hr : refsOK u) : refsOK v := by
  intro n t hlt hta
  have hsome : (lookupS u n).isSome = true := by
    rw [← h.1 n, hlt]
    rfl
  obtain ⟨s, hls⟩ := Option.isSome_iff_exists.mp hsome
  obtain ⟨t', hlt', _, _, _, ha, _⟩ := h.2 n s hls
  rw [hlt] at hlt'
  injection hlt' with hlt'
  subst hlt'
  rw [ha, h.1 s.after]
  exact hr n s hls (ha ▸ hta)

/-- A state with only unresolved priorities satisfies the invariant. -/
theorem priOK_zero {u : unorderedServices}
    (hz : ∀ n s, lookupS u n = some s → s.priority = 0) : priOK u :=
  fun n s h hp => absurd (hz n s h) hp

/-- Soundness of one `setPriority` call: on success the memoization invariant
is preserved, the state is only extended, only bindings of rank at most the
resolved name change their priority, the empty name resolves to 0 with no
state change, and a non-empty name resolves to a non-zero priority recorded
in its binding. -/
theorem setPriority_sound (rank : String → Nat) :
    ∀ (fuel : Nat) (u : unorderedServices) (name : String) (p : Nat)
      (u' : unorderedServices),
    setPriority fuel u name = some (p, u') → rankOK rank u → priOK u →
    priOK u' ∧ extendsS u u' ∧
    (∀ n t t', lookupS u n = some t → lookupS u' n = some t' →
      t.priority ≠ t'.priority → rank n ≤ rank name) ∧
    (name = "" → p = 0 ∧ u' = u) ∧
    (name ≠ "" → p ≠ 0 ∧ ∃ s', lookupS u' name = some s' ∧ s'.priority = p) := by
  intro fuel
  induction fuel with
  | zero =>
    intro u name p u' h
    simp [setPriority] at h
  | succ fuel ih =>
    intro u name p u' h hrank hpri
    rw [setPriority] at h
    by_cases hname : name = ""
    · rw [if_pos hname] at h
      injection h with h
      cases h
      refine ⟨hpri, extendsS_refl u, ?_, fun _ => ⟨rfl, rfl⟩, fun hne => (hne hname).elim⟩
      intro n t t' h1 h2 hne
      rw [h1] at h2
      injection h2 with h2
      exact absurd (congrArg Service.priority h2) hne
    · rw [if_neg hname] at h
      cases hl : lookupS u name with
      | none =>
        rw [hl] at h
        exact absurd h (by simp)
      | some s =>
        rw [hl] at h
        simp only [Option.some.injEq] at h
        by_cases hmemo : s.priority > 0
        · rw [if_pos hmemo] at h
          injection h with h
          cases h
          refine ⟨hpri, extendsS_refl u, ?_, fun he => (hname he).elim,
            fun _ => ⟨Nat.pos_iff_ne_zero.mp hmemo, s, hl, rfl⟩⟩
          intro n t t' h1 h2 hne
          rw [h1] at h2
          injection h2 with h2
          exact absurd (congrArg Service.priority h2) hne
        · rw [if_neg hmemo] at h
          have hs0 : s.priority = 0 := Nat.eq_zero_of_not_pos hmemo
          by_cases hafter : s.after = ""
          · rw [if_pos hafter] at h
            injection h with h
            cases h
            refine ⟨?_, extendsS_setPr u name 1 s hl hs0, ?_,
              fun he => (hname he).elim, fun _ => ⟨Nat.one_ne_zero, ?_⟩⟩
            · intro n' s'' hlk hpr
              by_cases hn' : n' = name
              · subst hn'
                rw [lookupS_setPr_self, hl] at hlk
                injection hlk with hlk
                subst hlk
                exact ⟨fun _ => rfl, fun hne2 => absurd hafter hne2⟩
              · rw [lookupS_setPr_ne _ _ _ _ hn'] at hlk
                have hcond := hpri n' s'' hlk hpr
                refine ⟨hcond.1, fun hne2 => ?_⟩
                obtain ⟨t, hlt, ht0, hrel⟩ := hcond.2 hne2
                by_cases hta : s''.after = name
                · rw [hta, hl] at hlt
                  injection hlt with hlt
                  subst hlt
                  exact absurd hs0 ht0
                · exact ⟨t, by rw [lookupS_setPr_ne _ _ _ _ hta]; exact hlt, ht0, hrel⟩
            · intro n t t' h1 h2 hne2
              by_cases hn : n = name
              · exact hn ▸ Nat.le_refl (rank n)
              · rw [lookupS_setPr_ne _ _ _ _ hn, h1] at h2
                injection h2 with h2
                exact absurd (congrArg Service.priority h2) hne2
            · refine ⟨{ s with priority := 1 }, ?_, rfl⟩
              rw [lookupS_setPr_self, hl]
              rfl
          · rw [if_neg hafter] at h
            cases hrec : setPriority fuel u s.after with
            | none =>
              rw [hrec] at h
              exact absurd h (by simp)
            | some pr =>
              obtain ⟨q, u1⟩ := pr
              rw [hrec] at h
              simp only [Option.some.injEq, Prod.mk.injEq] at h
              obtain ⟨rfl, rfl⟩ := h
              obtain ⟨hpri1, hext1, hmod1, _, hne1⟩ := ih u s.after q u1 hrec hrank hpri
              obtain ⟨hq0, t1, hlt1, ht1p⟩ := hne1 hafter
              have hranklt : rank s.after < rank name := hrank name s hl hafter
              obtain ⟨s1, hls1, _, _, _, hs1after, _⟩ := hext1.2 name s hl
              have hs10 : s1.priority = 0 := by
                by_cases heq : s.priority = s1.priority
                · rw [← heq]
                  exact hs0
                · exact absurd (hmod1 name s s1 hl hls1 heq) (Nat.not_le.mpr hranklt)
              have hanename : s.after ≠ name := fun hE => by
                rw [hE] at hranklt
                exact lt_irrefl _ hranklt
              refine ⟨?_, extendsS_trans hext1 (extendsS_setPr u1 name (q + 1) s1 hls1 hs10),
                ?_, fun he => (hname he).elim, fun _ => ⟨Nat.succ_ne_zero q, ?_⟩⟩
              · intro n' s'' hlk hpr
                by_cases hn' : n' = name
                · rw [hn', lookupS_setPr_self, hls1] at hlk
                  injection hlk with hlk
                  subst hlk
                  refine ⟨fun hae => ?_, fun _ => ?_⟩
                  · refine absurd ?_ hafter
                    rw [← hs1after]
                    exact hae
                  · refine ⟨t1, ?_, by rw [ht1p]; exact hq0, ?_⟩
                    · show lookupS (setPr u1 name (q + 1)) s1.after = some t1
                      rw [hs1after, lookupS_setPr_ne _ _ _ _ hanename]
                      exact hlt1
                    · show q + 1 = t1.priority + 1
                      rw [ht1p]
                · rw [lookupS_setPr_ne _ _ _ _ hn'] at hlk
                  have hcond := hpri1 n' s'' hlk hpr
                  refine ⟨hcond.1, fun hne2 => ?_⟩
                  obtain ⟨t, hlt, ht0, hrel⟩ := hcond.2 hne2
                  by_cases hta : s''.after = name
                  · rw [hta, hls1] at hlt
                    injection hlt with hlt
                    subst hlt
                    exact absurd hs10 ht0
                  · exact ⟨t, by rw [lookupS_setPr_ne _ _ _ _ hta]; exact hlt, ht0, hrel⟩
              · intro n t t' h1 h2 hne2
                by_cases hn : n = name
                · exact hn ▸ Nat.le_refl (rank n)
                · rw [lookupS_setPr_ne _ _ _ _ hn] at h2
                  by_cases hpeq : t.priority = t'.priority
                  · exact absurd hpeq hne2
                  · exact Nat.le_trans (hmod1 n t t' h1 h2 hpeq) (Nat.le_of_lt hranklt)
              · refine ⟨{ s1 with priority := q + 1 }, ?_, rfl⟩
                rw [lookupS_setPr_self, hls1]
                rfl

/-- Termination of `setPriority` on acyclic, referentially intact states:
fuel exceeding the rank of the resolved name suffices. -/
theorem setPriority_total (rank : String → Nat) :
    ∀ (fuel : Nat) (u : unorderedServices) (name : String),
    rankOK rank u → refsOK u →
    (name = "" ∨ (lookupS u name).isSome = true) →
    rank name < fuel → (setPriority fuel u name).isSome = true := by
  intro fuel
  induction fuel with
  | zero =>
    intro u name _ _ _ hf
    exact absurd hf (Nat.not_lt_zero _)
  | succ fuel ih =>
    intro u name hrank hrefs hmem hf
    rw [setPriority]
    by_cases hname : name = ""
    · rw [if_pos hname]
      rfl
    · rw [if_neg hname]
      obtain hln | hsome := hmem
      · exact absurd hln hname
      · obtain ⟨s, hl⟩ := Option.isSome_iff_exists.mp hsome
        rw [hl]
        show (if s.priority > 0 then some (s.priority, u)
          else if s.after = "" then some (1, setPr u name 1)
          else
            match setPriority fuel u s.after with
            | none => none
            | some (p, u') => some (p + 1, setPr u' name (p + 1))).isSome = true
        by_cases hmemo : s.priority > 0
        · rw [if_pos hmemo]
          rfl
        · rw [if_neg hmemo]
          by_cases hafter : s.after = ""
          · rw [if_pos hafter]
            rfl
          · rw [if_neg hafter]
            have hrlt : rank s.after < rank name := hrank name s hl hafter
            have hrec : (setPriority fuel u s.after).isSome = true :=
              ih u s.after hrank hrefs (Or.inr (hrefs name s hl hafter)) (by omega)
            obtain ⟨pr, hpr⟩ := Option.isSome_iff_exists.mp hrec
            obtain ⟨q, u1⟩ := pr
            rw [hpr]
            rfl

/-- Soundness of the ordering loop: the invariant is preserved along the
visited names and every visited non-empty name ends with a resolved,
non-zero priority. -/
theorem orderList_sound (rank : String → Nat) (fuel : Nat) :
    ∀ (names : List String) (u : unorderedServices) (g : orderedServices)
      (u' : unorderedServices) (g' : orderedServices),
    orderList fuel u g names = some (u', g') → rankOK rank u → priOK u →
    priOK u' ∧ extendsS u u' ∧
    (∀ n, n ∈ names → n ≠ "" → ∃ s, lookupS u' n = some s ∧ s.priority ≠ 0) := by
  intro names
  induction names with
  | nil =>
    intro u g u' g' h hrank hpri
    rw [orderList] at h
    simp only [Option.some.injEq, Prod.mk.injEq] at h
    obtain ⟨rfl, rfl⟩ := h
    exact ⟨hpri, extendsS_refl u, fun n hn => absurd hn (List.not_mem_nil n)⟩
  | cons name rest ih =>
    intro u g u' g' h hrank hpri
    rw [orderList] at h
    cases hsp : setPriority fuel u name with
    | none =>
      rw [hsp] at h
      exact absurd h (by simp)
    | some pr =>
      obtain ⟨p, u1⟩ := pr
      rw [hsp] at h
      simp only [Option.some.injEq] at h
      obtain ⟨hpriA, hextA, _, _, hneA⟩ :=
        setPriority_sound rank fuel u name p u1 hsp hrank hpri
      cases hlu : lookupS u1 name with
      | none =>
        rw [hlu] at h
        exact absurd h (by simp)
      | some srvc =>
        rw [hlu] at h
        simp only [Option.some.injEq] at h
        obtain ⟨hpriB, hextB, hmemB⟩ :=
          ih u1 (appendG g p srvc) u' g' h (rankOK_extendsS rank hextA hrank) hpriA
        refine ⟨hpriB, extendsS_trans hextA hextB, ?_⟩
        intro n hn hne
        rcases List.mem_cons.mp hn with rfl | hn'
        · obtain ⟨hp0, s', hls', hsp'⟩ := hneA hne
          obtain ⟨t, hlt, _, _, _, _, hpres⟩ := hextB.2 n s' hls'
          refine ⟨t, hlt, ?_⟩
          rw [hpres (by rw [hsp']; exact hp0), hsp']
          exact hp0
        · exact hmemB n hn' hne

/-- Termination of the ordering loop over acyclic, referentially intact
states with sufficient fuel. -/
theorem orderList_total (rank : String → Nat) (fuel : Nat) :
    ∀ (names : List String) (u : unorderedServices) (g : orderedServices),
    rankOK rank u → refsOK u → priOK u →
    (∀ n, n ∈ names → (lookupS u n).isSome = true) →
    (∀ n, n ∈ names → rank n < fuel) →
    (orderList fuel u g names).isSome = true := by
  intro names
  induction names with
  | nil =>
    intro u g _ _ _ _ _
    rw [orderList]
    rfl
  | cons name rest ih =>
    intro u g hrank hrefs hpri hmem hfuel
    have hsome := setPriority_total rank fuel u name hrank hrefs
      (Or.inr (hmem name (List.mem_cons_self ..))) (hfuel name (List.mem_cons_self ..))
    obtain ⟨pr, hsp⟩ := Option.isSome_iff_exists.mp hsome
    obtain ⟨p, u1⟩ := pr
    rw [orderList, hsp]
    obtain ⟨hpriA, hextA, _, _, _⟩ :=
      setPriority_sound rank fuel u name p u1 hsp hrank hpri
    have hlu : (lookupS u1 name).isSome = true := by
      rw [hextA.1 name]
      exact hmem name (List.mem_cons_self ..)
    obtain ⟨srvc, hlus⟩ := Option.isSome_iff_exists.mp hlu
    show (match lookupS u1 name with
      | none => none
      | some service => orderList fuel u1 (appendG g p service) rest).isSome = true
    rw [hlus]
    show (orderList fuel u1 (appendG g p srvc) rest).isSome = true
    exact ih u1 (appendG g p srvc) (rankOK_extendsS rank hextA hrank)
      (refsOK_extendsS hextA hrefs) hpriA
      (fun n hn => by rw [hextA.1 n]; exact hmem n (List.mem_cons_of_mem _ hn))
      (fun n hn => hfuel n (List.mem_cons_of_mem _ hn))

/-- Key membership coincides with a successful lookup. -/
theorem mem_keys_lookup : ∀ (u : unorderedServices) (n : String),
    n ∈ u.map Prod.fst ↔ (lookupS u n).isSome = true := by
  intro u n
  induction u with
  | nil => simp [lookupS]
  | cons q rest ih =>
    obtain ⟨k, t⟩ := q
    rw [List.map_cons, List.mem_cons, lookupS]
    by_cases hk : n = k
    · simp [hk]
    · rw [if_neg hk]
      constructor
      · rintro (h | h)
        · exact absurd h hk
        · exact ih.mp h
      · intro h
        exact Or.inr (ih.mpr h)

/-- A validated registry is referentially intact. -/
theorem refsOK_of_validate (m : Manager) (hv : m.Validate = none) :
    refsOK m.services := by
  intro n s hl hafter
  have hne : m.services ≠ [] := by
    intro he
    rw [Manager.Validate, if_pos he] at hv
    exact absurd hv (by simp)
  rw [Manager.Validate, if_neg hne] at hv
  have hall := (validateList_none_iff m.services m.services).mp hv
  have hentry := hall (n, s) (lookupS_mem m.services n s hl)
  obtain ⟨_, _, himp⟩ := (validateEntry_none_iff m.services n s).mp hentry
  obtain ⟨_, prev, hprev, _⟩ := himp hafter
  rw [hprev]
  rfl

/-- Every member's rank is below the successor of the maximum rank. -/
theorem rank_lt_bound (rank : String → Nat) :
    ∀ (l : List String) (n : String), n ∈ l →
    rank n < (l.map rank).foldr max 0 + 1 := by
  intro l
  induction l with
  | nil =>
    intro n h
    exact absurd h (List.not_mem_nil n)
  | cons a rest ih =>
    intro n h
    rcases List.mem_cons.mp h with rfl | h'
    · simp only [List.map_cons, List.foldr_cons]
      have := le_max_left (rank n) ((rest.map rank).foldr max 0)
      omega
    · have h1 := ih n h'
      simp only [List.map_cons, List.foldr_cons] at h1 ⊢
      have h2 := le_max_right (rank a) ((rest.map rank).foldr max 0)
      omega

/-- Level law the specification states for a fully ordered registry: every
service registered under a non-empty name has the level of its predecessor
plus one, or level 1 with no predecessor. -/
def levelsOK (u : unorderedServices) : Prop :=
  ∀ n s, lookupS u n = some s → n ≠ "" →
    (s.after = "" → s.priority = 1) ∧
    (s.after ≠ "" → ∃ t, lookupS u s.after = some t ∧ s.priority = t.priority + 1)

/-- C2 (amended): over every acyclic registration set accepted by validation
whose priorities are still unresolved, the level computation `order`
terminates (some fuel suffices), and whenever it returns, every service
registered under a non-empty name has level `level(after) + 1` when its
predecessor is set and level 1 otherwise. (A service registered under the
empty name is excluded: `setPriority` returns 0 for the empty name without
resolving that binding.) -/
theorem C2_order_levels (m : Manager)
    (hz : ∀ n s, lookupS m.services n = some s → s.priority = 0)
    (hv : m.Validate = none)
    (hacyc : Acyclic m.services) :
    (∀ fuel u' g, order fuel m.services = some (u', g) → levelsOK u') ∧
    (∃ fuel u' g, order fuel m.services = some (u', g)) := by
  obtain ⟨rank, hrank⟩ := hacyc
  have hpri : priOK m.services := priOK_zero hz
  have hrefs : refsOK m.services := refsOK_of_validate m hv
  constructor
  · intro fuel u' g h
    rw [order] at h
    obtain ⟨hpriF, hextF, hmemF⟩ :=
      orderList_sound rank fuel (m.services.map Prod.fst) m.services [] u' g h hrank hpri
    intro n s hl hne
    have hkey : n ∈ m.services.map Prod.fst := by
      rw [mem_keys_lookup, ← hextF.1 n, hl]
      rfl
    obtain ⟨s2, hls2, hsp2⟩ := hmemF n hkey hne
    rw [hl] at hls2
    injection hls2 with hls2
    subst hls2
    have hcond := hpriF n s hl hsp2
    refine ⟨hcond.1, fun hne2 => ?_⟩
    obtain ⟨t, hlt, _, hrel⟩ := hcond.2 hne2
    exact ⟨t, hlt, hrel⟩
  · have htot := orderList_total rank
      (((m.services.map Prod.fst).map rank).foldr max 0 + 1)
      (m.services.map Prod.fst) m.services [] hrank hrefs hpri
      (fun n hn => (mem_keys_lookup m.services n).mp hn)
      (fun n hn => rank_lt_bound rank (m.services.map Prod.fst) n hn)
    obtain ⟨pr, h⟩ := Option.isSome_iff_exists.mp htot
    obtain ⟨u', g⟩ := pr
    refine ⟨((m.services.map Prod.fst).map rank).foldr max 0 + 1, u', g, ?_⟩
    rw [order]
    exact h

/-- Chain registry a → b → c used to witness C2. -/
def chnA : Service := ⟨"a", 0, some none, some none, ""⟩

/-- Chain service "b", after "a". -/
def chnB : Service := ⟨"b", 0, some none, some none, "a"⟩

/-- Chain service "c", after "b". -/
def chnC : Service := ⟨"c", 0, some none, some none, "b"⟩

/-- Manager holding the three-service chain. -/
def chnMgr : Manager := ⟨"chn", [("a", chnA), ("b", chnB), ("c", chnC)]⟩

/-- Ranking witnessing acyclicity of the chain. -/
def chnRank : String → Nat := fun n => if n = "b" then 1 else if n = "c" then 2 else 0

/-- Witness for C2 at the concrete chain registry: its hypotheses hold and
the level computation terminates with the level law satisfied. -/
theorem C2_witness :
    (∀ fuel u' g, order fuel chnMgr.services = some (u', g) → levelsOK u') ∧
    (∃ fuel u' g, order fuel chnMgr.services = some (u', g)) :=
  C2_order_levels chnMgr
    (by
      intro n s h
      have h' : (if n = "a" then some chnA else if n = "b" then some chnB
        else if n = "c" then some chnC else none) = some s := h
      split_ifs at h' with h1 h2 h3
      · injection h' with h''
        subst h''
        rfl
      · injection h' with h''
        subst h''
        rfl
      · injection h' with h''
        subst h''
        rfl)
    rfl
    ⟨chnRank, by
      intro n s h hafter
      have h' : (if n = "a" then some chnA else if n = "b" then some chnB
        else if n = "c" then some chnC else none) = some s := h
      split_ifs at h' with h1 h2 h3
      · injection h' with h''
        subst h''
        exact absurd rfl hafter
      · injection h' with h''
        subst h''
        subst h2
        decide
      · injection h' with h''
        subst h''
        subst h3
        decide⟩

/-- Degenerate service registered under the empty name. -/
def epsSvc : Service := ⟨"", 0, some none, some none, ""⟩

/-- Manager holding only the empty-named service. -/
def epsMgr : Manager := ⟨"eps", [("", epsSvc)]⟩

/-- C2 counterexample: the registry holding one service under the empty name
is accepted by validation, is acyclic and starts unresolved, yet after the
level computation the service — which has no predecessor — has level 0, not
level 1 as the claim states (`setPriority` treats the empty name as the root
marker and never resolves that binding). -/
theorem C2_counterexample :
    epsMgr.Validate = none ∧
    Acyclic epsMgr.services ∧
    (∀ n s, lookupS epsMgr.services n = some s → s.priority = 0) ∧
    order 2 epsMgr.services = some (epsMgr.services, [(0, [epsSvc])]) ∧
    epsSvc.after = "" ∧
    ¬epsSvc.priority = 1 := by
  refine ⟨rfl, ⟨fun _ => 0, ?_⟩, ?_, rfl, rfl, by decide⟩
  · intro n s h hafter
    have h' : (if n = "" then some epsSvc else none) = some s := h
    split_ifs at h' with h1
    · injection h' with h''
      subst h''
      exact absurd rfl hafter
  · intro n s h
    have h' : (if n = "" then some epsSvc else none) = some s := h
    split_ifs at h' with h1
    · injection h' with h''
      subst h''
      rfl

/-! ## C3: undetected cycles make the level computation diverge -/

/-- Cycle service "a", after "b". -/
def cycA : Service := ⟨"a", 0, some none, some none, "b"⟩

/-- Cycle service "b", after "c". -/
def cycB : Service := ⟨"b", 0, some none, some none, "c"⟩

/-- Cycle service "c", after "a": a three-node cycle. -/
def cycC : Service := ⟨"c", 0, some none, some none, "a"⟩

/-- The three-node-cycle registry. -/
def cycServices : unorderedServices := [("a", cycA), ("b", cycB), ("c", cycC)]

/-- Manager holding the three-node cycle. -/
def cycMgr : Manager := ⟨"cyc", cycServices⟩

/-- On the three-node cycle, `setPriority` never terminates: every fuel is
exhausted (the Go original recurses without bound). -/
theorem cyc_setPriority_none : ∀ fuel : Nat,
    setPriority fuel cycServices "a" = none ∧
    setPriority fuel cycServices "b" = none ∧
    setPriority fuel cycServices "c" = none := by
  intro fuel
  induction fuel with
  | zero => exact ⟨rfl, rfl, rfl⟩
  | succ fuel ih =>
    obtain ⟨ha, hb, hc⟩ := ih
    refine ⟨?_, ?_, ?_⟩
    · show (match setPriority fuel cycServices "b" with
        | none => none
        | some (p, u') => some (p + 1, setPr u' "a" (p + 1))) = none
      rw [hb]
    · show (match setPriority fuel cycServices "c" with
        | none => none
        | some (p, u') => some (p + 1, setPr u' "b" (p + 1))) = none
      rw [hc]
    · show (match setPriority fuel cycServices "a" with
        | none => none
        | some (p, u') => some (p + 1, setPr u' "c" (p + 1))) = none
      rw [ha]

/-- C3: the three-node cycle a → b → c → a is accepted by `Validate` (only
immediate two-node cycles are detected), yet the level computation never
terminates on it — `setPriority` and `order` exhaust every fuel — so the
levels are not a total function over the registry's services, contradicting
the specification's intent (the spec itself flags the unbounded recursion as
a latent defect). -/
theorem C3_cycle_divergence :
    cycMgr.Validate = none ∧
    (∀ fuel, setPriority fuel cycMgr.services "a" = none) ∧
    (∀ fuel, order fuel cycMgr.services = none) := by
  refine ⟨rfl, fun fuel => (cyc_setPriority_none fuel).1, fun fuel => ?_⟩
  show (match setPriority fuel cycServices "a" with
    | none => none
    | some (p, u') =>
      match lookupS u' "a" with
      | none => none
      | some service => orderList fuel u' (appendG [] p service) ["b", "c"]) = none
  rw [(cyc_setPriority_none fuel).1]
